import Mathlib

/-!
Verification of the NEAT evolutionary engine (neat_impl.hpp and the
RankSelection header) against its natural-language specification.

The C++ source is shallowly embedded:
* `double` values that stay finite are embedded as `ℚ`; where the source can
  produce a non-finite double (NaN or infinity, only ever via a division whose
  divisor is zero) we use `FP := Option ℚ`, with `none` marking a non-finite
  value.
* `size_t` loop counters and sizes are `ℕ`; the `int delta` of Reproduce is
  `ℤ`.
* `arma::randu<double>()` is embedded as a stream `r : ℕ → ℚ` of draws,
  consumed at an explicit counter `t`; the caller assumes `0 ≤ r n < 1` where
  a proof needs it.
* `while` loops that need not advance are given explicit fuel and return
  `Option`; `none` means the loop was still running when the fuel ran out, or
  that the body performed an out-of-bounds vector access (undefined behaviour
  in the source).
-/

/-- An edge record of the genome: `ConnectionGene` (§3 of the spec). -/
structure ConnectionGene where
  source : ℕ
  target : ℕ
  weight : ℚ
  enabled : Bool
  innovID : ℕ
deriving DecidableEq

instance : Inhabited ConnectionGene := ⟨⟨0, 0, 0, true, 0⟩⟩

/-- A network individual (§3): connection genes, node count (`getNodeCount`),
per-node depths, fitness. -/
structure Genome where
  connectionGeneList : List ConnectionGene
  nodeCount : ℕ
  nodeDepths : List ℕ
  fitness : ℚ
deriving DecidableEq

/-- IEEE doubles for the fitness-share arithmetic of `Reproduce`: `some q` is
a finite value, `none` a non-finite one (NaN or infinity).  In the embedded
code the only way to create a non-finite value is a division whose divisor is
zero (`0.0/0` is NaN, `x/0` is an infinity); both are collapsed to `none`. -/
abbrev FP := Option ℚ

def fadd : FP → FP → FP
  | some a, some b => some (a + b)
  | _, _ => none

def fmul : FP → FP → FP
  | some a, some b => some (a * b)
  | _, _ => none

def fdiv : FP → FP → FP
  | some a, some b => if b = 0 then none else some (a / b)
  | _, _ => none

/-- `arma::accu` over a vector of doubles. -/
def fsum (l : List FP) : FP := l.foldl fadd (some 0)

/-- `std::round`: round half away from zero. -/
def roundHalfAway (q : ℚ) : ℤ := if q < 0 then -⌊-q + 1 / 2⌋ else ⌊q + 1 / 2⌋

def fround : FP → Option ℤ
  | some q => some (roundHalfAway q)
  | none => none

/-- Lines 118-124 of `NEAT::Reproduce`: the mean fitness of each species is
its fitness sum divided by `speciesList[i].size()` — the division is performed
unconditionally, with the species size as divisor, even when the species is
empty. -/
def meanFitnessesFP (speciesList : List (List ℚ)) : List FP :=
  speciesList.map (fun s => fdiv (some s.sum) (some (s.length : ℚ)))

/-- Lines 125-129 of `NEAT::Reproduce`:
`speciesSize[i] = std::round(meanFitnesses[i] / totalMeanFitness * popSize)`,
where `totalMeanFitness = arma::accu(meanFitnesses)`.  The division by the
total is performed unconditionally. -/
def allotSizesFP (mf : List FP) (popSize : ℕ) : List (Option ℤ) :=
  let total := fsum mf
  mf.map (fun m => fround (fmul (fdiv m total) (some (popSize : ℚ))))

/-- Line 132: `int delta = popSize - accu(speciesSize)` — converting the
double-valued sizes to an integer requires each entry to be finite. -/
def toSizes : List (Option ℤ) → Option (List ℤ)
  | [] => some []
  | none :: _ => none
  | some x :: rest => (toSizes rest).map (fun l => x :: l)

/-- Lines 133-141: `while (delta > 0) { speciesSize[i++]++; delta--; }`.
`none` marks fuel exhaustion or an out-of-bounds write through
`speciesSize[i]`. -/
def addLoop : ℕ → List ℤ → ℤ → ℕ → Option (List ℤ)
  | 0, _, _, _ => none
  | fuel + 1, sizes, delta, i =>
    if 0 < delta then
      if h : i < sizes.length then
        addLoop fuel (sizes.set i (sizes.get ⟨i, h⟩ + 1)) (delta - 1) (i + 1)
      else none
    else some sizes

/-- Lines 143-151: `while (delta < 0) { speciesSize[i++]--; delta--; }` — the
loop body decrements `delta` (exactly as the source does) although the loop
runs while `delta < 0`. -/
def removeLoop : ℕ → List ℤ → ℤ → ℕ → Option (List ℤ)
  | 0, _, _, _ => none
  | fuel + 1, sizes, delta, i =>
    if delta < 0 then
      if h : i < sizes.length then
        removeLoop fuel (sizes.set i (sizes.get ⟨i, h⟩ - 1)) (delta - 1) (i + 1)
      else none
    else some sizes

/-- Lines 131-151 of `NEAT::Reproduce`: rounding-drift reconciliation. -/
def reconcile (fuel : ℕ) (popSize : ℕ) (sizes : List ℤ) : Option (List ℤ) :=
  if 0 < (popSize : ℤ) - sizes.sum then
    addLoop fuel sizes ((popSize : ℤ) - sizes.sum) 0
  else if (popSize : ℤ) - sizes.sum < 0 then
    removeLoop fuel sizes ((popSize : ℤ) - sizes.sum) 0
  else some sizes

/-- Lines 118-151 of `NEAT::Reproduce`: per-species fitness list in, reconciled
per-species sizes out. -/
def reproduceSizes (fuel : ℕ) (speciesList : List (List ℚ)) (popSize : ℕ) :
    Option (List ℤ) :=
  match toSizes (allotSizesFP (meanFitnessesFP speciesList) popSize) with
  | none => none
  | some sizes => reconcile fuel popSize sizes

/-- Lines 154-160 of `NEAT::Reproduce`: the elite count of a species,
`round(elitismProp * speciesSize[i])`, bumped to 1 when the rounding gives 0. -/
def eliteCountOf (elitismProp : ℚ) (size : ℤ) : ℤ :=
  let n := roundHalfAway (elitismProp * (size : ℚ))
  if n = 0 then 1 else n

/-- Lines 364-369, `compareGenome`: `gen1.Fitness() > gen2.Fitness()`, the
descending-fitness comparator handed to `std::sort`. -/
def compareGenome (g1 g2 : Genome) : Bool := decide (g2.fitness < g1.fitness)

def insertByCompare (g : Genome) : List Genome → List Genome
  | [] => [g]
  | h :: tl => if compareGenome g h then g :: h :: tl else h :: insertByCompare g tl

/-- A sort by `compareGenome` (descending fitness); used to embed a
`std::sort` call on a prefix of the species vector. -/
def sortByCompare : List Genome → List Genome
  | [] => []
  | h :: tl => insertByCompare h (sortByCompare tl)

/-- Line 167 of `NEAT::Reproduce`:
`std::sort(speciesList[i].begin(), speciesList[i].begin(), compareGenome)`
sorts the iterator range `[begin, begin + n)`; the call site passes the range
`[begin, begin)`, i.e. `n = 0`, so no element is reordered. -/
def sortFirst (n : ℕ) (l : List Genome) : List Genome :=
  sortByCompare (l.take n) ++ l.drop n

/-- Lines 167-170 of `NEAT::Reproduce`: after the (empty-range) sort, the
first `numElite` members of the species vector are pushed into the new
population as elites. -/
def elitesOf (speciesI : List Genome) (numElite : ℕ) : List Genome :=
  (sortFirst 0 speciesI).take numElite

/-- The constructor parameters of `NEAT` (lines 26-41). -/
structure NEATParams where
  inputNodeCount : ℕ
  outputNodeCount : ℕ
  popSize : ℕ
  maxGen : ℕ
  numSpecies : ℕ
  bias : ℚ
  weightMutationProb : ℚ
  weightMutationSize : ℚ
  biasMutationProb : ℚ
  biasMutationSize : ℚ
  nodeAdditionProb : ℚ
  connAdditionProb : ℚ
  disableProb : ℚ
  elitismProp : ℚ
  isAcyclic : Bool
deriving DecidableEq

/-- Lines 25-58, `NEAT::NEAT`: every argument is stored unchanged and the
constructor body is empty (`/* Nothing to do here yet */`), so construction
performs no validation and always succeeds. -/
def NEATconstruct (p : NEATParams) : Option NEATParams := some p

/-- `RankSelection::Select`, line 416/428: the acceptance probability
`(size - pos) * 2 / (size * (size + 1))`.  `size` and `pos` are `size_t`, so
the whole expression is computed in integer arithmetic before being stored in
a `double`. -/
def rankProb (size pos : ℕ) : ℕ := (size - pos) * 2 / (size * (size + 1))

/-- Lines 411-420 of `RankSelection::Select`: the first while loop — wrap
`pos` past the end, accept position `pos` when `randu < prob`, else advance.
Returns the accepted index and the updated draw counter. -/
def selectLoop1 (r : ℕ → ℚ) (size : ℕ) : ℕ → ℕ → ℕ → Option (ℕ × ℕ)
  | 0, _, _ => none
  | fuel + 1, pos, t =>
    if r t < (rankProb size (if pos ≥ size then 0 else pos) : ℚ) then
      some (if pos ≥ size then 0 else pos, t + 1)
    else selectLoop1 r size fuel ((if pos ≥ size then 0 else pos) + 1) (t + 1)

/-- Lines 422-432 of `RankSelection::Select`: the second while loop.  Its
condition `selection[1] == n && selection[0] != selection[1]` becomes false as
soon as any index is accepted, so the loop stops at the first acceptance even
when the accepted index equals `selection[0]` (hence `s0` is unused by the
loop body, exactly as in the source). -/
def selectLoop2 (r : ℕ → ℚ) (size s0 : ℕ) : ℕ → ℕ → ℕ → Option (ℕ × ℕ)
  | 0, _, _ => none
  | fuel + 1, pos, t =>
    if r t < (rankProb size (if pos ≥ size then 0 else pos) : ℚ) then
      some (if pos ≥ size then 0 else pos, t + 1)
    else selectLoop2 r size s0 fuel ((if pos ≥ size then 0 else pos) + 1) (t + 1)

/-- Lines 406-433, `RankSelection::Select` on a fitness vector of length
`size`: run the two acceptance loops and return the pair of chosen indices. -/
def rankSelect (r : ℕ → ℚ) (size fuel : ℕ) : Option (ℕ × ℕ) :=
  match selectLoop1 r size fuel 0 0 with
  | none => none
  | some (s0, t1) =>
    match selectLoop2 r size s0 fuel 0 t1 with
    | none => none
    | some (s1, _) => some (s0, s1)

/-- Lines 175-178 of `NEAT::Reproduce`: `arma::vec selection(2)` is filled by
`Select`, then the two crossover arguments are read as
`speciesList[i][selection[0]]` and `speciesList[i][selection[2]]`.  An index
read past the end of the selection vector is out of bounds (`none`). -/
def crossoverParents (species : List Genome) (selection : List ℕ) :
    Option (Genome × Genome) :=
  match selection.get? 0, selection.get? 2 with
  | some i1, some i2 =>
    match species.get? i1, species.get? i2 with
    | some p1, some p2 => some (p1, p2)
    | _, _ => none
  | _, _ => none

/-- The parameters of `NEAT` that `Crossover` reads. -/
structure CrossCfg where
  disableProb : ℚ
  isAcyclic : Bool

/-- Lines 279-292 of `NEAT::Crossover`: when a gene of the base list matches
(by innovation ID) a gene of the less fit parent, possibly re-roll its enabled
flag (one draw, only when either copy is disabled) and, with one further draw,
possibly take the weight of the less fit parent.  Source node, target node and
innovation ID of the base gene are never touched. -/
def updateMatched (disableProb : ℚ) (r : ℕ → ℚ) (t : ℕ)
    (cLess cBase : ConnectionGene) : ConnectionGene × ℕ :=
  let s :=
    if !cBase.enabled || !cLess.enabled then
      (if r t < disableProb then ({ cBase with enabled := false }, t + 1)
       else ({ cBase with enabled := true }, t + 1))
    else (cBase, t)
  if r s.2 < 1 / 2 then ({ s.1 with weight := cLess.weight }, s.2 + 1)
  else (s.1, s.2 + 1)

/-- Lines 275-295: scan `newConnGeneList` from position `k` for the first gene
whose innovation ID matches. -/
def findFrom (innovID : ℕ) (l : List ConnectionGene) (k : ℕ) : Option ℕ :=
  match (l.drop k).findIdx? (fun c => c.innovID == innovID) with
  | some d => some (k + d)
  | none => none

/-- Lines 269-296 of `NEAT::Crossover`: the matching-genes loop of the
fitter-base branch.  For each gene of the less fit parent, find a match at or
after position `k` in the base list; on a match, update it in place and resume
the next search from the match position (`k = j`). -/
def matchLoop (disableProb : ℚ) (r : ℕ → ℚ) :
    List ConnectionGene → List ConnectionGene → ℕ → ℕ →
    List ConnectionGene × ℕ
  | [], newL, _, t => (newL, t)
  | cLess :: rest, newL, k, t =>
    match findFrom cLess.innovID newL k with
    | some j =>
      let s := updateMatched disableProb r t cLess (newL.getD j default)
      matchLoop disableProb r rest (newL.set j s.1) j s.2
    | none => matchLoop disableProb r rest newL k t

/-- Modelled from the spec: the `Genome` constructors that `Crossover` calls
(the genome class itself is not in src/).  Per §4.1/§4.5 of the spec the
constructor stores the given connection-gene list, takes the `nextNodeID`
argument as the node count reported by `getNodeCount()`, keeps the given depth
table (acyclic constructor) and leaves the fitness unset until the Task
evaluates it (embedded as 0). -/
def mkGenome (conns : List ConnectionGene) (depths : List ℕ) (nodeCount : ℕ) :
    Genome :=
  { connectionGeneList := conns, nodeCount := nodeCount,
    nodeDepths := depths, fitness := 0 }

/-- Lines 231-311 of `NEAT::Crossover`, the fitter-base branch after the base
parent has been chosen: copy the base gene list, depths and node count
(`newConnGeneList = base.connectionGeneList;` etc., all C++ value copies), run
the matching loop against the less fit parent, and build the child with the
acyclic constructor (depth table kept) or the plain constructor. -/
def crossoverBase (cfg : CrossCfg) (r : ℕ → ℚ) (t : ℕ)
    (base lessFit : Genome) : Genome × ℕ :=
  let s := matchLoop cfg.disableProb r lessFit.connectionGeneList
    base.connectionGeneList 0 t
  (mkGenome s.1 (if cfg.isAcyclic then base.nodeDepths else [])
    base.nodeCount, s.2)

/-- Lines 322-345 of `NEAT::Crossover`: the first merge loop of the
equal-fitness branch, `while (j < minSize)`.  The index pairs `(i, j)` of the
source are embedded as the remaining suffixes of the two gene lists: the loop
runs while the `min` suffix is nonempty, and reading
`maxGenome.connectionGeneList[i]` with `i` past the end (which the source does
whenever the max list is exhausted first) is an out-of-bounds read, `none`.
On a draw below 1/2 a gene is pushed and the matching index advances;
otherwise the indices are unchanged and the comparison is retried with fresh
draws. -/
def mergeLoop (r : ℕ → ℚ) :
    ℕ → List ConnectionGene → List ConnectionGene → ℕ →
    List ConnectionGene → Option (List ConnectionGene × List ConnectionGene × ℕ)
  | 0, _, _, _, _ => none
  | fuel + 1, maxR, minR, t, acc =>
    match minR with
    | [] => some (maxR, acc, t)
    | gmin :: minTail =>
      match maxR with
      | [] => none
      | gmax :: maxTail =>
        if gmin.innovID < gmax.innovID then
          (if r t < 1 / 2 then
            mergeLoop r fuel (gmax :: maxTail) minTail (t + 1) (acc ++ [gmin])
          else mergeLoop r fuel (gmax :: maxTail) (gmin :: minTail) (t + 1) acc)
        else if gmin.innovID = gmax.innovID then
          (if r t < 1 / 2 then
            mergeLoop r fuel maxTail minTail (t + 1) (acc ++ [gmin])
          else mergeLoop r fuel maxTail minTail (t + 1) (acc ++ [gmax]))
        else
          (if r t < 1 / 2 then
            mergeLoop r fuel maxTail (gmin :: minTail) (t + 1) (acc ++ [gmax])
          else mergeLoop r fuel (gmax :: maxTail) (gmin :: minTail) (t + 1) acc)

/-- Lines 346-350 of `NEAT::Crossover`: the excess loop `while (i < maxSize)`,
again with the index embedded as the remaining suffix of the max list. -/
def excessLoop (r : ℕ → ℚ) :
    ℕ → List ConnectionGene → ℕ → List ConnectionGene →
    Option (List ConnectionGene × ℕ)
  | 0, _, _, _ => none
  | fuel + 1, maxR, t, acc =>
    match maxR with
    | [] => some (acc, t)
    | gmax :: maxTail =>
      if r t < 1 / 2 then excessLoop r fuel maxTail (t + 1) (acc ++ [gmax])
      else excessLoop r fuel (gmax :: maxTail) (t + 1) acc

/-- Lines 223-359, `NEAT::Crossover`, returning the child, the updated draw
counter, and the final values of the two parents.  In the fitter-base branch
every write targets the local copies `newConnGeneList`, `nodeDepths` and
`lessFitGenome` (C++ value copies of the parent data); in the merge branch
`maxGenome`/`minGenome` are references to the parents but are only read, with
`push_back` copying each gene.  The parents are therefore returned with the
values they were passed with. -/
def CrossoverFull (cfg : CrossCfg) (r : ℕ → ℚ) (fuel t : ℕ)
    (gen1 gen2 : Genome) : Option (Genome × ℕ × Genome × Genome) :=
  if ¬ |gen1.fitness - gen2.fitness| < 1 / 1000 ∨ cfg.isAcyclic = true then
    if |gen1.fitness - gen2.fitness| < 1 / 1000 then
      (if r t < 1 / 2 then
        some ((crossoverBase cfg r (t + 1) gen1 gen2).1,
          (crossoverBase cfg r (t + 1) gen1 gen2).2, gen1, gen2)
      else
        some ((crossoverBase cfg r (t + 1) gen2 gen1).1,
          (crossoverBase cfg r (t + 1) gen2 gen1).2, gen1, gen2))
    else if gen2.fitness < gen1.fitness then
      some ((crossoverBase cfg r t gen1 gen2).1,
        (crossoverBase cfg r t gen1 gen2).2, gen1, gen2)
    else
      some ((crossoverBase cfg r t gen2 gen1).1,
        (crossoverBase cfg r t gen2 gen1).2, gen1, gen2)
  else
    match mergeLoop r fuel
      (if gen1.connectionGeneList.length > gen2.connectionGeneList.length
        then gen1 else gen2).connectionGeneList
      (if gen1.connectionGeneList.length < gen2.connectionGeneList.length
        then gen1 else gen2).connectionGeneList t [] with
    | none => none
    | some (maxRest, acc, t1) =>
      match excessLoop r fuel maxRest t1 acc with
      | none => none
      | some (newL, t2) =>
        some (mkGenome newL [] (max gen1.nodeCount gen2.nodeCount), t2,
          gen1, gen2)

/-- `NEAT::Crossover` viewed as the child-producing function (the parents are
unchanged, see `CrossoverFull`). -/
def Crossover (cfg : CrossCfg) (r : ℕ → ℚ) (fuel t : ℕ)
    (gen1 gen2 : Genome) : Option (Genome × ℕ) :=
  match CrossoverFull cfg r fuel t gen1 gen2 with
  | none => none
  | some (child, tF, _, _) => some (child, tF)

/-- The innovation IDs of a gene list, in list order. -/
def idsOf (l : List ConnectionGene) : List ℕ := l.map (fun c => c.innovID)

/-- The structural part of a connection gene: source node, target node and
innovation ID — everything except the weight and the enabled flag, i.e.
exactly what the matching-genes loop of `Crossover` never modifies. -/
def sigOf (c : ConnectionGene) : ℕ × ℕ × ℕ := (c.source, c.target, c.innovID)

/-- The spec invariant on a genome gene list (§3): ordered by innovation ID
ascending with unique IDs, i.e. strictly ascending. -/
def SortedG (l : List ConnectionGene) : Prop :=
  l.Pairwise (fun a b => a.innovID < b.innovID)

/-- Every connection gene of the genome references node IDs below the node
count (§8, crossover node-count safety). -/
def Genome.validConns (g : Genome) : Prop :=
  ∀ c ∈ g.connectionGeneList, c.source < g.nodeCount ∧ c.target < g.nodeCount

/-- Modelled from the spec: initial genome construction (the genome class is
not in src/) assigns fresh innovation IDs from the monotone ledger, one per
initial edge, consecutively from the current counter (§3, §4.1). -/
def initialGenomeIDs (numEdges start : ℕ) : List ℕ :=
  (List.range numEdges).map (fun k => k + start)

/-- Modelled from the spec: a structural mutation (the genome class is not in
src/) appends one new connection gene whose innovation ID is issued fresh by
the monotone ledger, hence strictly greater than every ID already in the
genome (§3, §4.1). -/
def mutateAddGene (g : Genome) (c : ConnectionGene) : Genome :=
  { g with connectionGeneList := g.connectionGeneList ++ [c] }

/-- Lines 237-267 of `NEAT::Crossover`: the base parent of the fitter-base
branch, whose gene list, node count and depth table seed the child — the
coin-chosen parent when the fitness difference is below the 0.001 epsilon,
otherwise the parent with the strictly greater fitness. -/
def baseParent (r : ℕ → ℚ) (t : ℕ) (gen1 gen2 : Genome) : Genome :=
  if |gen1.fitness - gen2.fitness| < 1 / 1000 then
    (if r t < 1 / 2 then gen1 else gen2)
  else if gen2.fitness < gen1.fitness then gen1 else gen2

/-- A configuration that §7 of the spec classifies as a configuration error:
zero input and output node counts, zero population size, and a species count
exceeding the population size. -/
def invalidConfig : NEATParams :=
  { inputNodeCount := 0, outputNodeCount := 0, popSize := 0, maxGen := 10,
    numSpecies := 5, bias := 0, weightMutationProb := 0,
    weightMutationSize := 0, biasMutationProb := 0, biasMutationSize := 0,
    nodeAdditionProb := 0, connAdditionProb := 0, disableProb := 0,
    elitismProp := 1 / 2, isAcyclic := false }

/-!  Lemmas and claim theorems. -/

theorem removeLoop_eq_none (fuel : ℕ) :
    ∀ (sizes : List ℤ) (delta : ℤ) (i : ℕ), delta < 0 →
      removeLoop fuel sizes delta i = none := by
  induction fuel with
  | zero => intro sizes delta i _; rfl
  | succ n ih =>
    intro sizes delta i h
    unfold removeLoop
    rw [if_pos h]
    by_cases hi : i < sizes.length
    · rw [dif_pos hi]
      exact ih _ _ _ (by omega)
    · rw [dif_neg hi]

/-- C1: the claim fails on the code.  In a generation where the raw rounded
allotments sum to more than `popSize` (species fitness lists `[[1], [1]]`,
`popSize = 3`: each species is allotted `round(1.5) = 2`, sum `4 > 3`), the
surplus-removal loop decrements `delta` in its body while running until
`delta < 0` is false, so it never exits normally: for every amount of fuel the
reconciliation fails to produce sizes summing to `popSize` (in the C++ source
the loop runs `speciesSize[i++]--` off the end of the vector forever). -/
theorem allotment_conservation_fails (fuel : ℕ) :
    reproduceSizes fuel [[(1 : ℚ)], [1]] 3 = none := by
  have h1 : toSizes (allotSizesFP (meanFitnessesFP [[(1 : ℚ)], [1]]) 3) =
      some [2, 2] := by
    norm_num [toSizes, allotSizesFP, meanFitnessesFP, fsum, fadd, fdiv, fmul,
      fround, roundHalfAway]
  unfold reproduceSizes
  rw [h1]
  show reconcile fuel 3 [2, 2] = none
  unfold reconcile
  rw [if_neg (by norm_num [List.sum_cons, List.sum_nil]),
    if_pos (by norm_num [List.sum_cons, List.sum_nil])]
  exact removeLoop_eq_none fuel _ _ _
    (by norm_num [List.sum_cons, List.sum_nil])

/-- C2: the claim fails on the code.  For the species partition `[[], [1]]`
(species 0 received zero members from clustering) the mean-fitness computation
of `Reproduce` divides the fitness sum `0.0` by the species size `0`,
producing a non-finite value (NaN) for the empty species instead of the mean
fitness `0` that the claim requires. -/
theorem empty_species_mean_divides_by_zero :
    meanFitnessesFP [[], [(1 : ℚ)]] = [none, some 1] ∧
    meanFitnessesFP [[], [(1 : ℚ)]] ≠ [some 0, some 1] := by
  constructor
  · simp [meanFitnessesFP, fdiv]
  · simp [meanFitnessesFP, fdiv]

theorem rankProb_eq_zero (size pos : ℕ) (h : 2 ≤ size) :
    rankProb size pos = 0 := by
  unfold rankProb
  apply Nat.div_eq_of_lt
  calc (size - pos) * 2 ≤ size * 2 := Nat.mul_le_mul_right 2 (Nat.sub_le _ _)
    _ < size * (size + 1) := by
        apply mul_lt_mul_of_pos_left (by omega) (by omega)

theorem selectLoop1_eq_none (r : ℕ → ℚ) (size : ℕ) (hsize : 2 ≤ size)
    (hr : ∀ n, 0 ≤ r n) (fuel : ℕ) :
    ∀ (pos t : ℕ), selectLoop1 r size fuel pos t = none := by
  induction fuel with
  | zero => intro pos t; rfl
  | succ n ih =>
    intro pos t
    have hlt : ¬ r t <
        ((rankProb size (if pos ≥ size then 0 else pos) : ℕ) : ℚ) := by
      rw [rankProb_eq_zero _ _ hsize]
      push_cast
      exact not_lt.mpr (hr t)
    unfold selectLoop1
    rw [if_neg hlt]
    exact ih _ _

/-- C3: the claim fails on the code.  For every fitness vector of length at
least 2, the acceptance probability `(size - pos) * 2 / (size * (size + 1))`
is computed in `size_t` integer arithmetic and equals 0 at every position, so
`randu < prob` never holds (the draws are nonnegative) and the first selection
loop of `RankSelection::Select` never terminates, for any amount of fuel. -/
theorem select_never_terminates (r : ℕ → ℚ) (size fuel : ℕ)
    (hsize : 2 ≤ size) (hr : ∀ n, 0 ≤ r n) :
    rankSelect r size fuel = none := by
  unfold rankSelect
  rw [selectLoop1_eq_none r size hsize hr fuel 0 0]

/-- Witness for C3 at a concrete input: a fitness vector of length 2 and the
all-zero draw stream. -/
theorem select_never_terminates_witness :
    2 ≤ 2 ∧ rankSelect (fun _ => 0) 2 5 = none :=
  ⟨by decide, select_never_terminates (fun _ => 0) 2 5 (by decide)
    (fun _ => le_refl 0)⟩

/-- C4: the claim fails on the code.  `std::sort` at line 167 is called on the
empty iterator range `[begin, begin)`, so the species is never sorted by
fitness: the genomes copied as elites are simply the first `eliteCount`
members in clustering order.  For the species `[fitness 1, fitness 5]` with
elite count `round(0.5 * 1) = 1`, the copied elite is the fitness-1 genome,
not the highest-fitness member. -/
theorem elites_not_top_fitness :
    elitesOf [⟨[], 3, [], 1⟩, ⟨[], 3, [], 5⟩] 1 = [⟨[], 3, [], 1⟩] ∧
    (⟨[], 3, [], 1⟩ : Genome).fitness < (⟨[], 3, [], 5⟩ : Genome).fitness ∧
    eliteCountOf (1 / 2) 1 = 1 := by
  refine ⟨rfl, by norm_num, by norm_num [eliteCountOf, roundHalfAway]⟩

/-- C5: the claim fails on the code.  The fill loop stores the two indices
returned by `Select` in `arma::vec selection(2)` and then reads
`selection[0]` and `selection[2]` as the crossover arguments: the second read
is one past the end of the two-element vector, so the second parent is not the
genome at the second returned index (in the C++ source this is an
out-of-bounds read, undefined behaviour). -/
theorem second_parent_read_out_of_bounds (species : List Genome)
    (selection : List ℕ) (h : selection.length = 2) :
    crossoverParents species selection = none := by
  match selection, h with
  | [a, b], _ => rfl

/-- Witness for C5 at a concrete input: the selection vector `[0, 1]` over a
two-genome species. -/
theorem second_parent_read_out_of_bounds_witness :
    crossoverParents [⟨[], 3, [], 1⟩, ⟨[], 3, [], 5⟩] [0, 1] = none :=
  second_parent_read_out_of_bounds _ [0, 1] rfl

/-- C7: the claim fails on the code.  In a generation where every species has
mean fitness 0 (species fitness lists `[[0], [0]]`), the total mean fitness is
0 and the allotment formula divides by it unconditionally: every allotment is
non-finite (NaN in the C++ source) instead of the uniform allotment
`[5, 5]` of `popSize = 10` that the claim requires. -/
theorem zero_total_fitness_unguarded :
    allotSizesFP (meanFitnessesFP [[(0 : ℚ)], [0]]) 10 = [none, none] ∧
    allotSizesFP (meanFitnessesFP [[(0 : ℚ)], [0]]) 10 ≠ [some 5, some 5] := by
  have h : allotSizesFP (meanFitnessesFP [[(0 : ℚ)], [0]]) 10 =
      [none, none] := by
    norm_num [allotSizesFP, meanFitnessesFP, fsum, fadd, fdiv, fmul, fround]
  refine ⟨h, ?_⟩
  rw [h]
  decide

/-- C8: the claim fails on the code.  The `NEAT` constructor body is empty
(`/* Nothing to do here yet */`): a configuration with zero input nodes, zero
output nodes, zero population size and a species count exceeding the
population size is stored and accepted, and no failure occurs before the
generational loop runs. -/
theorem construction_does_not_fail_fast :
    NEATconstruct invalidConfig = some invalidConfig ∧
    invalidConfig.inputNodeCount = 0 ∧ invalidConfig.outputNodeCount = 0 ∧
    invalidConfig.popSize = 0 ∧
    invalidConfig.popSize < invalidConfig.numSpecies := by
  exact ⟨rfl, rfl, rfl, rfl, by decide⟩

theorem updateMatched_sig (p : ℚ) (r : ℕ → ℚ) (t : ℕ)
    (a b : ConnectionGene) : sigOf (updateMatched p r t a b).1 = sigOf b := by
  simp only [updateMatched]
  repeat' split
  all_goals simp [sigOf]

theorem map_set_of_eq {α : Type} (f : ConnectionGene → α) :
    ∀ (l : List ConnectionGene) (j : ℕ) (a : ConnectionGene),
    f a = f (l.getD j default) → (l.set j a).map f = l.map f := by
  intro l
  induction l with
  | nil => intro j a _; rfl
  | cons c tl ih =>
    intro j a h
    cases j with
    | zero => simp_all [List.set]
    | succ n =>
      simp only [List.set, List.map]
      rw [ih n a (by simpa using h)]

theorem matchLoop_sig (p : ℚ) (r : ℕ → ℚ) :
    ∀ (less newL : List ConnectionGene) (k t : ℕ),
    ((matchLoop p r less newL k t).1).map sigOf = newL.map sigOf := by
  intro less
  induction less with
  | nil => intro newL k t; rfl
  | cons c rest ih =>
    intro newL k t
    unfold matchLoop
    cases hf : findFrom c.innovID newL k with
    | none => exact ih newL k t
    | some j =>
      rw [ih]
      exact map_set_of_eq sigOf newL j _ (updateMatched_sig p r t c _)

theorem crossoverBase_nodeCount (cfg : CrossCfg) (r : ℕ → ℚ) (t : ℕ)
    (base lessFit : Genome) :
    (crossoverBase cfg r t base lessFit).1.nodeCount = base.nodeCount := rfl

theorem crossoverBase_sig (cfg : CrossCfg) (r : ℕ → ℚ) (t : ℕ)
    (base lessFit : Genome) :
    (crossoverBase cfg r t base lessFit).1.connectionGeneList.map sigOf =
      base.connectionGeneList.map sigOf :=
  matchLoop_sig cfg.disableProb r lessFit.connectionGeneList
    base.connectionGeneList 0 t

theorem sortedG_append_one {acc : List ConnectionGene} {g : ConnectionGene}
    (h1 : SortedG acc) (h2 : ∀ a ∈ acc, a.innovID < g.innovID) :
    SortedG (acc ++ [g]) := by
  simp only [SortedG] at h1 ⊢
  rw [List.pairwise_append]
  refine ⟨h1, by simp, ?_⟩
  intro a ha b hb
  rw [List.mem_singleton] at hb
  subst hb
  exact h2 a ha

theorem crossInv_append {acc rest : List ConnectionGene} {g : ConnectionGene}
    (h1 : ∀ a ∈ acc, ∀ b ∈ rest, a.innovID < b.innovID)
    (h2 : ∀ b ∈ rest, g.innovID < b.innovID) :
    ∀ a ∈ acc ++ [g], ∀ b ∈ rest, a.innovID < b.innovID := by
  intro a ha b hb
  rcases List.mem_append.mp ha with h | h
  · exact h1 a h b hb
  · rw [List.mem_singleton] at h
    subst h
    exact h2 b hb

theorem excessLoop_inv (r : ℕ → ℚ) (fuel : ℕ) :
    ∀ (maxR : List ConnectionGene) (t : ℕ) (acc out : List ConnectionGene)
      (tF : ℕ),
    excessLoop r fuel maxR t acc = some (out, tF) →
    SortedG maxR → SortedG acc →
    (∀ a ∈ acc, ∀ b ∈ maxR, a.innovID < b.innovID) →
    SortedG out ∧ ∀ g ∈ out, g ∈ acc ∨ g ∈ maxR := by
  induction fuel with
  | zero => intro maxR t acc out tF h; simp [excessLoop] at h
  | succ n ih =>
    intro maxR t acc out tF h hmax hacc hcross
    cases maxR with
    | nil =>
      simp only [excessLoop, Option.some.injEq, Prod.mk.injEq] at h
      obtain ⟨h1, _⟩ := h
      subst h1
      exact ⟨hacc, fun g hg => Or.inl hg⟩
    | cons gmax maxTail =>
      have hmax2 := hmax
      rw [SortedG, List.pairwise_cons] at hmax2
      obtain ⟨hhead, htail⟩ := hmax2
      simp only [excessLoop] at h
      by_cases hcoin : r t < 1 / 2
      · rw [if_pos hcoin] at h
        have hres := ih maxTail (t + 1) (acc ++ [gmax]) out tF h htail
          (sortedG_append_one hacc
            (fun a ha => hcross a ha gmax (List.mem_cons_self _ _)))
          (crossInv_append
            (fun a ha b hb => hcross a ha b (List.mem_cons_of_mem _ hb))
            hhead)
        refine ⟨hres.1, fun g hg => ?_⟩
        rcases hres.2 g hg with h1 | h1
        · rcases List.mem_append.mp h1 with h2 | h2
          · exact Or.inl h2
          · rw [List.mem_singleton] at h2
            subst h2
            exact Or.inr (List.mem_cons_self _ _)
        · exact Or.inr (List.mem_cons_of_mem _ h1)
      · rw [if_neg hcoin] at h
        exact ih (gmax :: maxTail) (t + 1) acc out tF h hmax hacc hcross

theorem mergeLoop_inv (r : ℕ → ℚ) (fuel : ℕ) :
    ∀ (maxR minR : List ConnectionGene) (t : ℕ)
      (acc maxOut accOut : List ConnectionGene) (tF : ℕ),
    mergeLoop r fuel maxR minR t acc = some (maxOut, accOut, tF) →
    SortedG maxR → SortedG minR → SortedG acc →
    (∀ a ∈ acc, ∀ b ∈ maxR, a.innovID < b.innovID) →
    (∀ a ∈ acc, ∀ b ∈ minR, a.innovID < b.innovID) →
    SortedG accOut ∧ SortedG maxOut ∧
      (∀ a ∈ accOut, ∀ b ∈ maxOut, a.innovID < b.innovID) ∧
      (∀ g ∈ accOut, g ∈ acc ∨ g ∈ maxR ∨ g ∈ minR) ∧
      (∀ g ∈ maxOut, g ∈ maxR) := by
  induction fuel with
  | zero => intro maxR minR t acc maxOut accOut tF h; simp [mergeLoop] at h
  | succ n ih =>
    intro maxR minR t acc maxOut accOut tF h hmax hmin hacc hcm hcn
    cases minR with
    | nil =>
      simp only [mergeLoop, Option.some.injEq, Prod.mk.injEq] at h
      obtain ⟨h1, h2, _⟩ := h
      subst h1
      subst h2
      exact ⟨hacc, hmax, hcm, fun g hg => Or.inl hg, fun g hg => hg⟩
    | cons gmin minTail =>
      have hmin2 := hmin
      rw [SortedG, List.pairwise_cons] at hmin2
      obtain ⟨hminH, hminT⟩ := hmin2
      cases maxR with
      | nil => simp [mergeLoop] at h
      | cons gmax maxTail =>
        have hmax2 := hmax
        rw [SortedG, List.pairwise_cons] at hmax2
        obtain ⟨hmaxH, hmaxT⟩ := hmax2
        have hcmg : ∀ a ∈ acc, a.innovID < gmax.innovID :=
          fun a ha => hcm a ha gmax (List.mem_cons_self _ _)
        have hcmt : ∀ a ∈ acc, ∀ b ∈ maxTail, a.innovID < b.innovID :=
          fun a ha b hb => hcm a ha b (List.mem_cons_of_mem _ hb)
        have hcng : ∀ a ∈ acc, a.innovID < gmin.innovID :=
          fun a ha => hcn a ha gmin (List.mem_cons_self _ _)
        have hcnt : ∀ a ∈ acc, ∀ b ∈ minTail, a.innovID < b.innovID :=
          fun a ha b hb => hcn a ha b (List.mem_cons_of_mem _ hb)
        simp only [mergeLoop] at h
        by_cases hlt : gmin.innovID < gmax.innovID
        · rw [if_pos hlt] at h
          by_cases hcoin : r t < 1 / 2
          · rw [if_pos hcoin] at h
            have hres := ih (gmax :: maxTail) minTail (t + 1) (acc ++ [gmin])
              maxOut accOut tF h hmax hminT
              (sortedG_append_one hacc hcng)
              (crossInv_append hcm (by
                intro b hb
                rcases List.mem_cons.mp hb with h2 | h2
                · subst h2; exact hlt
                · exact lt_trans hlt (hmaxH b h2)))
              (crossInv_append hcnt hminH)
            refine ⟨hres.1, hres.2.1, hres.2.2.1, fun g hg => ?_,
              hres.2.2.2.2⟩
            rcases hres.2.2.2.1 g hg with h1 | h1 | h1
            · rcases List.mem_append.mp h1 with h2 | h2
              · exact Or.inl h2
              · rw [List.mem_singleton] at h2
                subst h2
                exact Or.inr (Or.inr (List.mem_cons_self _ _))
            · exact Or.inr (Or.inl h1)
            · exact Or.inr (Or.inr (List.mem_cons_of_mem _ h1))
          · rw [if_neg hcoin] at h
            exact ih (gmax :: maxTail) (gmin :: minTail) (t + 1) acc
              maxOut accOut tF h hmax hmin hacc hcm hcn
        · rw [if_neg hlt] at h
          by_cases heq : gmin.innovID = gmax.innovID
          · rw [if_pos heq] at h
            by_cases hcoin : r t < 1 / 2
            · rw [if_pos hcoin] at h
              have hres := ih maxTail minTail (t + 1) (acc ++ [gmin])
                maxOut accOut tF h hmaxT hminT
                (sortedG_append_one hacc hcng)
                (crossInv_append hcmt (by
                  intro b hb
                  rw [heq]
                  exact hmaxH b hb))
                (crossInv_append hcnt hminH)
              refine ⟨hres.1, hres.2.1, hres.2.2.1, fun g hg => ?_, ?_⟩
              · rcases hres.2.2.2.1 g hg with h1 | h1 | h1
                · rcases List.mem_append.mp h1 with h2 | h2
                  · exact Or.inl h2
                  · rw [List.mem_singleton] at h2
                    subst h2
                    exact Or.inr (Or.inr (List.mem_cons_self _ _))
                · exact Or.inr (Or.inl (List.mem_cons_of_mem _ h1))
                · exact Or.inr (Or.inr (List.mem_cons_of_mem _ h1))
              · exact fun g hg =>
                  List.mem_cons_of_mem _ (hres.2.2.2.2 g hg)
            · rw [if_neg hcoin] at h
              have hres := ih maxTail minTail (t + 1) (acc ++ [gmax])
                maxOut accOut tF h hmaxT hminT
                (sortedG_append_one hacc hcmg)
                (crossInv_append hcmt hmaxH)
                (crossInv_append hcnt (by
                  intro b hb
                  rw [← heq]
                  exact hminH b hb))
              refine ⟨hres.1, hres.2.1, hres.2.2.1, fun g hg => ?_, ?_⟩
              · rcases hres.2.2.2.1 g hg with h1 | h1 | h1
                · rcases List.mem_append.mp h1 with h2 | h2
                  · exact Or.inl h2
                  · rw [List.mem_singleton] at h2
                    subst h2
                    exact Or.inr (Or.inl (List.mem_cons_self _ _))
                · exact Or.inr (Or.inl (List.mem_cons_of_mem _ h1))
                · exact Or.inr (Or.inr (List.mem_cons_of_mem _ h1))
              · exact fun g hg =>
                  List.mem_cons_of_mem _ (hres.2.2.2.2 g hg)
          · rw [if_neg heq] at h
            have hgt : gmax.innovID < gmin.innovID := by omega
            by_cases hcoin : r t < 1 / 2
            · rw [if_pos hcoin] at h
              have hres := ih maxTail (gmin :: minTail) (t + 1) (acc ++ [gmax])
                maxOut accOut tF h hmaxT hmin
                (sortedG_append_one hacc hcmg)
                (crossInv_append hcmt hmaxH)
                (crossInv_append hcn (by
                  intro b hb
                  rcases List.mem_cons.mp hb with h2 | h2
                  · subst h2; exact hgt
                  · exact lt_trans hgt (hminH b h2)))
              refine ⟨hres.1, hres.2.1, hres.2.2.1, fun g hg => ?_, ?_⟩
              · rcases hres.2.2.2.1 g hg with h1 | h1 | h1
                · rcases List.mem_append.mp h1 with h2 | h2
                  · exact Or.inl h2
                  · rw [List.mem_singleton] at h2
                    subst h2
                    exact Or.inr (Or.inl (List.mem_cons_self _ _))
                · exact Or.inr (Or.inl (List.mem_cons_of_mem _ h1))
                · exact Or.inr (Or.inr h1)
              · exact fun g hg =>
                  List.mem_cons_of_mem _ (hres.2.2.2.2 g hg)
            · rw [if_neg hcoin] at h
              exact ih (gmax :: maxTail) (gmin :: minTail) (t + 1) acc
                maxOut accOut tF h hmax hmin hacc hcm hcn

theorem nodup_idsOf_of_sortedG {l : List ConnectionGene} (h : SortedG l) :
    (idsOf l).Nodup := by
  simp only [idsOf, List.Nodup, List.pairwise_map]
  exact List.Pairwise.imp (fun hab => Nat.ne_of_lt hab) h

theorem idsOf_eq_of_sig {l1 l2 : List ConnectionGene}
    (h : l1.map sigOf = l2.map sigOf) : idsOf l1 = idsOf l2 := by
  have h2 := congrArg (List.map (fun s : ℕ × ℕ × ℕ => s.2.2)) h
  simpa [idsOf, sigOf, List.map_map, Function.comp] using h2

theorem validConns_transfer {l1 l2 : List ConnectionGene} {n : ℕ}
    (h : l1.map sigOf = l2.map sigOf)
    (hv : ∀ c ∈ l2, c.source < n ∧ c.target < n) :
    ∀ c ∈ l1, c.source < n ∧ c.target < n := by
  intro c hc
  have hmem : sigOf c ∈ l2.map sigOf := by
    rw [← h]
    exact List.mem_map_of_mem _ hc
  obtain ⟨c2, hc2, hsig⟩ := List.mem_map.mp hmem
  simp only [sigOf, Prod.mk.injEq] at hsig
  obtain ⟨h1, h2, _⟩ := hsig
  rw [← h1, ← h2]
  exact hv c2 hc2

theorem crossoverFull_parents (cfg : CrossCfg) (r : ℕ → ℚ) (fuel t : ℕ)
    (g1 g2 child : Genome) (tF : ℕ) (g1F g2F : Genome)
    (hc : CrossoverFull cfg r fuel t g1 g2 = some (child, tF, g1F, g2F)) :
    g1F = g1 ∧ g2F = g2 := by
  unfold CrossoverFull at hc
  repeat' split at hc
  all_goals try (cases hc)
  all_goals exact ⟨rfl, rfl⟩

theorem crossover_eq_some (cfg : CrossCfg) (r : ℕ → ℚ) (fuel t : ℕ)
    (g1 g2 child : Genome) (tF : ℕ)
    (h : Crossover cfg r fuel t g1 g2 = some (child, tF)) :
    CrossoverFull cfg r fuel t g1 g2 = some (child, tF, g1, g2) := by
  unfold Crossover at h
  cases hF : CrossoverFull cfg r fuel t g1 g2 with
  | none => rw [hF] at h; cases h
  | some v =>
    obtain ⟨c, t2, p1, p2⟩ := v
    rw [hF] at h
    simp only [Option.some.injEq, Prod.mk.injEq] at h
    obtain ⟨hp1, hp2⟩ := crossoverFull_parents _ _ _ _ _ _ _ _ _ _ hF
    obtain ⟨h1, h2⟩ := h
    rw [h1, h2, hp1, hp2]

theorem crossoverFull_spec (cfg : CrossCfg) (r : ℕ → ℚ) (fuel t : ℕ)
    (g1 g2 child : Genome) (tF : ℕ) (g1F g2F : Genome)
    (hs1 : SortedG g1.connectionGeneList) (hs2 : SortedG g2.connectionGeneList)
    (hc : CrossoverFull cfg r fuel t g1 g2 = some (child, tF, g1F, g2F)) :
    ((¬ |g1.fitness - g2.fitness| < 1 / 1000 ∨ cfg.isAcyclic = true) ∧
      child.connectionGeneList.map sigOf =
        (baseParent r t g1 g2).connectionGeneList.map sigOf ∧
      child.nodeCount = (baseParent r t g1 g2).nodeCount) ∨
    ((|g1.fitness - g2.fitness| < 1 / 1000 ∧ cfg.isAcyclic = false) ∧
      child.nodeCount = max g1.nodeCount g2.nodeCount ∧
      SortedG child.connectionGeneList ∧
      (∀ c ∈ child.connectionGeneList,
        c ∈ g1.connectionGeneList ∨ c ∈ g2.connectionGeneList)) := by
  unfold CrossoverFull at hc
  by_cases hbr : ¬ |g1.fitness - g2.fitness| < 1 / 1000 ∨ cfg.isAcyclic = true
  · rw [if_pos hbr] at hc
    refine Or.inl ⟨hbr, ?_⟩
    by_cases heqf : |g1.fitness - g2.fitness| < 1 / 1000
    · rw [if_pos heqf] at hc
      by_cases hcoin : r t < 1 / 2
      · rw [if_pos hcoin] at hc
        simp only [Option.some.injEq, Prod.mk.injEq] at hc
        obtain ⟨hch, _⟩ := hc
        subst hch
        rw [baseParent, if_pos heqf, if_pos hcoin]
        exact ⟨crossoverBase_sig cfg r (t + 1) g1 g2,
          crossoverBase_nodeCount cfg r (t + 1) g1 g2⟩
      · rw [if_neg hcoin] at hc
        simp only [Option.some.injEq, Prod.mk.injEq] at hc
        obtain ⟨hch, _⟩ := hc
        subst hch
        rw [baseParent, if_pos heqf, if_neg hcoin]
        exact ⟨crossoverBase_sig cfg r (t + 1) g2 g1,
          crossoverBase_nodeCount cfg r (t + 1) g2 g1⟩
    · rw [if_neg heqf] at hc
      by_cases hfit : g2.fitness < g1.fitness
      · rw [if_pos hfit] at hc
        simp only [Option.some.injEq, Prod.mk.injEq] at hc
        obtain ⟨hch, _⟩ := hc
        subst hch
        rw [baseParent, if_neg heqf, if_pos hfit]
        exact ⟨crossoverBase_sig cfg r t g1 g2,
          crossoverBase_nodeCount cfg r t g1 g2⟩
      · rw [if_neg hfit] at hc
        simp only [Option.some.injEq, Prod.mk.injEq] at hc
        obtain ⟨hch, _⟩ := hc
        subst hch
        rw [baseParent, if_neg heqf, if_neg hfit]
        exact ⟨crossoverBase_sig cfg r t g2 g1,
          crossoverBase_nodeCount cfg r t g2 g1⟩
  · rw [if_neg hbr] at hc
    push_neg at hbr
    obtain ⟨heqf, hacy⟩ := hbr
    have hsMax : SortedG
        (if g1.connectionGeneList.length > g2.connectionGeneList.length
          then g1 else g2).connectionGeneList := by
      split <;> assumption
    have hsMin : SortedG
        (if g1.connectionGeneList.length < g2.connectionGeneList.length
          then g1 else g2).connectionGeneList := by
      split <;> assumption
    cases hm : mergeLoop r fuel
        (if g1.connectionGeneList.length > g2.connectionGeneList.length
          then g1 else g2).connectionGeneList
        (if g1.connectionGeneList.length < g2.connectionGeneList.length
          then g1 else g2).connectionGeneList t [] with
    | none => rw [hm] at hc; cases hc
    | some res =>
      obtain ⟨maxRest, acc, t1⟩ := res
      rw [hm] at hc
      dsimp only at hc
      cases he : excessLoop r fuel maxRest t1 acc with
      | none => rw [he] at hc; cases hc
      | some res2 =>
        obtain ⟨newL, t2⟩ := res2
        rw [he] at hc
        simp only [Option.some.injEq, Prod.mk.injEq] at hc
        obtain ⟨hch, _⟩ := hc
        subst hch
        have hmr := mergeLoop_inv r fuel _ _ t [] maxRest acc t1 hm
          hsMax hsMin (by simp [SortedG]) (by simp) (by simp)
        have her := excessLoop_inv r fuel maxRest t1 acc newL t2 he
          hmr.2.1 hmr.1 hmr.2.2.1
        refine Or.inr ⟨⟨heqf, Bool.not_eq_true _ ▸ hacy⟩, rfl, her.1, ?_⟩
        intro c hcm
        have hml : ∀ x : ConnectionGene,
            x ∈ (if g1.connectionGeneList.length >
                g2.connectionGeneList.length
              then g1 else g2).connectionGeneList →
            x ∈ g1.connectionGeneList ∨ x ∈ g2.connectionGeneList := by
          intro x hx
          split at hx
          · exact Or.inl hx
          · exact Or.inr hx
        have hnl : ∀ x : ConnectionGene,
            x ∈ (if g1.connectionGeneList.length <
                g2.connectionGeneList.length
              then g1 else g2).connectionGeneList →
            x ∈ g1.connectionGeneList ∨ x ∈ g2.connectionGeneList := by
          intro x hx
          split at hx
          · exact Or.inl hx
          · exact Or.inr hx
        rcases her.2 c hcm with h1 | h1
        · rcases hmr.2.2.2.1 c h1 with h2 | h2 | h2
          · simp at h2
          · exact hml c h2
          · exact hnl c h2
        · exact hml c (hmr.2.2.2.2 c h1)

theorem baseParent_cases (r : ℕ → ℚ) (t : ℕ) (g1 g2 : Genome) :
    baseParent r t g1 g2 = g1 ∨ baseParent r t g1 g2 = g2 := by
  unfold baseParent
  split
  · split
    · exact Or.inl rfl
    · exact Or.inr rfl
  · split
    · exact Or.inl rfl
    · exact Or.inr rfl

/-- C10: `Crossover` never modifies either parent genome.  Every write in
the fitter-base branch targets the value copies `newConnGeneList`,
`nodeDepths` and `lessFitGenome`; the merge branch only reads through the
`maxGenome`/`minGenome` references.  After the call both parents keep their
connection gene lists, node counts, node depths and fitness values. -/
theorem crossover_parents_unchanged (cfg : CrossCfg) (r : ℕ → ℚ)
    (fuel t : ℕ) (g1 g2 child : Genome) (tF : ℕ) (g1F g2F : Genome)
    (hc : CrossoverFull cfg r fuel t g1 g2 = some (child, tF, g1F, g2F)) :
    g1F = g1 ∧ g2F = g2 ∧
    g1F.connectionGeneList = g1.connectionGeneList ∧
    g1F.nodeCount = g1.nodeCount ∧ g1F.nodeDepths = g1.nodeDepths ∧
    g1F.fitness = g1.fitness ∧
    g2F.connectionGeneList = g2.connectionGeneList ∧
    g2F.nodeCount = g2.nodeCount ∧ g2F.nodeDepths = g2.nodeDepths ∧
    g2F.fitness = g2.fitness := by
  obtain ⟨h1, h2⟩ := crossoverFull_parents _ _ _ _ _ _ _ _ _ _ hc
  subst h1
  subst h2
  exact ⟨rfl, rfl, rfl, rfl, rfl, rfl, rfl, rfl, rfl, rfl⟩

theorem crossover_parents_unchanged_witness :
    (⟨[⟨0, 1, 0, true, 1⟩, ⟨0, 2, 7, true, 2⟩], 5, [], 10⟩ : Genome) =
      ⟨[⟨0, 1, 0, true, 1⟩, ⟨0, 2, 7, true, 2⟩], 5, [], 10⟩ ∧
    (⟨[], 3, [], 0⟩ : Genome) = ⟨[], 3, [], 0⟩ ∧
    (⟨[⟨0, 1, 0, true, 1⟩, ⟨0, 2, 7, true, 2⟩], 5, [], 10⟩ :
        Genome).connectionGeneList =
      (⟨[⟨0, 1, 0, true, 1⟩, ⟨0, 2, 7, true, 2⟩], 5, [], 10⟩ :
        Genome).connectionGeneList ∧
    (⟨[⟨0, 1, 0, true, 1⟩, ⟨0, 2, 7, true, 2⟩], 5, [], 10⟩ :
        Genome).nodeCount =
      (⟨[⟨0, 1, 0, true, 1⟩, ⟨0, 2, 7, true, 2⟩], 5, [], 10⟩ :
        Genome).nodeCount ∧
    (⟨[⟨0, 1, 0, true, 1⟩, ⟨0, 2, 7, true, 2⟩], 5, [], 10⟩ :
        Genome).nodeDepths =
      (⟨[⟨0, 1, 0, true, 1⟩, ⟨0, 2, 7, true, 2⟩], 5, [], 10⟩ :
        Genome).nodeDepths ∧
    (⟨[⟨0, 1, 0, true, 1⟩, ⟨0, 2, 7, true, 2⟩], 5, [], 10⟩ :
        Genome).fitness =
      (⟨[⟨0, 1, 0, true, 1⟩, ⟨0, 2, 7, true, 2⟩], 5, [], 10⟩ :
        Genome).fitness ∧
    (⟨[], 3, [], 0⟩ : Genome).connectionGeneList =
      (⟨[], 3, [], 0⟩ : Genome).connectionGeneList ∧
    (⟨[], 3, [], 0⟩ : Genome).nodeCount =
      (⟨[], 3, [], 0⟩ : Genome).nodeCount ∧
    (⟨[], 3, [], 0⟩ : Genome).nodeDepths =
      (⟨[], 3, [], 0⟩ : Genome).nodeDepths ∧
    (⟨[], 3, [], 0⟩ : Genome).fitness = (⟨[], 3, [], 0⟩ : Genome).fitness :=
  crossover_parents_unchanged ⟨1 / 2, false⟩ (fun _ => 0) 4 0
    ⟨[⟨0, 1, 0, true, 1⟩, ⟨0, 2, 7, true, 2⟩], 5, [], 10⟩ ⟨[], 3, [], 0⟩
    (mkGenome [⟨0, 1, 0, true, 1⟩, ⟨0, 2, 7, true, 2⟩] [] 5) 0
    ⟨[⟨0, 1, 0, true, 1⟩, ⟨0, 2, 7, true, 2⟩], 5, [], 10⟩ ⟨[], 3, [], 0⟩
    (by
      unfold CrossoverFull
      rw [if_pos (Or.inl (by norm_num)), if_neg (by norm_num),
        if_pos (by norm_num)]
      rfl)

/-- C9: no two connection genes within the same genome share an innovation
ID — for initial genomes (modelled from the spec: consecutive fresh ledger
IDs), for mutated genomes (modelled from the spec: each structural mutation
appends a gene with a fresh ID above all existing ones), and for crossover
children of both the fitter-base branch (lines 269-296: gene identities are
those of the base parent) and the gene-merge branch (lines 315-350: a sorted
merge of two strictly ascending lists), given the spec invariant that parent
gene lists are strictly ascending in innovation ID. -/
theorem innovation_uniqueness :
    (∀ numEdges start : ℕ, (initialGenomeIDs numEdges start).Nodup) ∧
    (∀ (g : Genome) (c : ConnectionGene),
      (idsOf g.connectionGeneList).Nodup →
      (∀ x ∈ idsOf g.connectionGeneList, x < c.innovID) →
      (idsOf (mutateAddGene g c).connectionGeneList).Nodup) ∧
    (∀ (cfg : CrossCfg) (r : ℕ → ℚ) (fuel t : ℕ) (g1 g2 child : Genome)
      (tF : ℕ), SortedG g1.connectionGeneList →
      SortedG g2.connectionGeneList →
      Crossover cfg r fuel t g1 g2 = some (child, tF) →
      (idsOf child.connectionGeneList).Nodup) := by
  refine ⟨?_, ?_, ?_⟩
  · intro numEdges start
    exact List.Nodup.map (add_left_injective start) (List.nodup_range _)
  · intro g c hnd hlt
    have h : idsOf (mutateAddGene g c).connectionGeneList =
        idsOf g.connectionGeneList ++ [c.innovID] := by
      simp [mutateAddGene, idsOf]
    rw [h, List.nodup_append]
    refine ⟨hnd, List.nodup_singleton _, ?_⟩
    intro a ha hb
    rw [List.mem_singleton] at hb
    rw [hb] at ha
    exact absurd (hlt _ ha) (lt_irrefl _)
  · intro cfg r fuel t g1 g2 child tF hs1 hs2 hc
    have hF := crossover_eq_some _ _ _ _ _ _ _ _ hc
    rcases crossoverFull_spec _ _ _ _ _ _ _ _ _ _ hs1 hs2 hF with
      ⟨_, hsig, _⟩ | ⟨_, _, hsort, _⟩
    · rw [idsOf_eq_of_sig hsig]
      rcases baseParent_cases r t g1 g2 with hbp | hbp
      · rw [hbp]
        exact nodup_idsOf_of_sortedG hs1
      · rw [hbp]
        exact nodup_idsOf_of_sortedG hs2
    · exact nodup_idsOf_of_sortedG hsort

theorem innovation_uniqueness_witness :
    (idsOf (mkGenome [⟨0, 1, 0, true, 1⟩, ⟨0, 2, 7, true, 2⟩]
      [] 5).connectionGeneList).Nodup :=
  innovation_uniqueness.2.2 ⟨1 / 2, false⟩ (fun _ => 0) 4 0
    ⟨[⟨0, 1, 0, true, 1⟩, ⟨0, 2, 7, true, 2⟩], 5, [], 10⟩ ⟨[], 3, [], 0⟩
    (mkGenome [⟨0, 1, 0, true, 1⟩, ⟨0, 2, 7, true, 2⟩] [] 5) 0
    (by simp [SortedG]) (by simp [SortedG])
    (by
      unfold Crossover CrossoverFull
      rw [if_pos (Or.inl (by norm_num)), if_neg (by norm_num),
        if_pos (by norm_num)]
      rfl)

/-- C6 as amended: in the fitter-base branch (one parent strictly fitter, or
acyclic mode) the child node count equals the node count of the base parent
`baseParent r t g1 g2` — the fitter parent, or the coin-chosen parent on an
equal-fitness acyclic tie — not the max of both parents; in the equal-fitness
gene-merge branch it equals the max of the two parent node counts (line 352);
in all branches, for well-formed parents (strictly ascending innovation IDs,
every gene referencing node IDs below the node count), every connection gene
of the child references node IDs below the child node count. -/
theorem crossover_node_count (cfg : CrossCfg) (r : ℕ → ℚ) (fuel t : ℕ)
    (g1 g2 child : Genome) (tF : ℕ)
    (hs1 : SortedG g1.connectionGeneList) (hs2 : SortedG g2.connectionGeneList)
    (hv1 : g1.validConns) (hv2 : g2.validConns)
    (hc : Crossover cfg r fuel t g1 g2 = some (child, tF)) :
    ((¬ |g1.fitness - g2.fitness| < 1 / 1000 ∨ cfg.isAcyclic = true) →
      child.nodeCount = (baseParent r t g1 g2).nodeCount) ∧
    ((|g1.fitness - g2.fitness| < 1 / 1000 ∧ cfg.isAcyclic = false) →
      child.nodeCount = max g1.nodeCount g2.nodeCount) ∧
    child.validConns := by
  have hF := crossover_eq_some _ _ _ _ _ _ _ _ hc
  simp only [Genome.validConns] at hv1 hv2 ⊢
  rcases crossoverFull_spec _ _ _ _ _ _ _ _ _ _ hs1 hs2 hF with
    ⟨hcond, hsig, hn⟩ | ⟨⟨hq, hb⟩, hnc, _, hmem⟩
  · refine ⟨fun _ => hn, ?_, ?_⟩
    · intro hx
      rcases hcond with hcnd | hcnd
      · exact absurd hx.1 hcnd
      · rw [hx.2] at hcnd
        cases hcnd
    · rcases baseParent_cases r t g1 g2 with hbp | hbp
      · simp only [hn, hbp]
        rw [hbp] at hsig
        exact validConns_transfer hsig hv1
      · simp only [hn, hbp]
        rw [hbp] at hsig
        exact validConns_transfer hsig hv2
  · refine ⟨?_, fun _ => hnc, ?_⟩
    · intro hx
      rcases hx with h | h
      · exact absurd hq h
      · rw [hb] at h
        cases h
    · intro c hcm
      rw [hnc]
      rcases hmem c hcm with h | h
      · have hcv := hv1 c h
        exact ⟨lt_of_lt_of_le hcv.1 (le_max_left _ _),
          lt_of_lt_of_le hcv.2 (le_max_left _ _)⟩
      · have hcv := hv2 c h
        exact ⟨lt_of_lt_of_le hcv.1 (le_max_right _ _),
          lt_of_lt_of_le hcv.2 (le_max_right _ _)⟩

theorem crossover_node_count_witness :
    ((¬ |(⟨[⟨0, 1, 0, true, 1⟩, ⟨0, 2, 7, true, 2⟩], 5, [], 10⟩ :
          Genome).fitness - (⟨[], 3, [], 0⟩ : Genome).fitness| < 1 / 1000 ∨
      (⟨1 / 2, false⟩ : CrossCfg).isAcyclic = true) →
      (mkGenome [⟨0, 1, 0, true, 1⟩, ⟨0, 2, 7, true, 2⟩] [] 5).nodeCount =
        (baseParent (fun _ => 0) 0
          ⟨[⟨0, 1, 0, true, 1⟩, ⟨0, 2, 7, true, 2⟩], 5, [], 10⟩
          ⟨[], 3, [], 0⟩).nodeCount) ∧
    ((|(⟨[⟨0, 1, 0, true, 1⟩, ⟨0, 2, 7, true, 2⟩], 5, [], 10⟩ :
          Genome).fitness - (⟨[], 3, [], 0⟩ : Genome).fitness| < 1 / 1000 ∧
      (⟨1 / 2, false⟩ : CrossCfg).isAcyclic = false) →
      (mkGenome [⟨0, 1, 0, true, 1⟩, ⟨0, 2, 7, true, 2⟩] [] 5).nodeCount =
        max (⟨[⟨0, 1, 0, true, 1⟩, ⟨0, 2, 7, true, 2⟩], 5, [], 10⟩ :
          Genome).nodeCount (⟨[], 3, [], 0⟩ : Genome).nodeCount) ∧
    (mkGenome [⟨0, 1, 0, true, 1⟩, ⟨0, 2, 7, true, 2⟩] [] 5).validConns :=
  crossover_node_count ⟨1 / 2, false⟩ (fun _ => 0) 4 0
    ⟨[⟨0, 1, 0, true, 1⟩, ⟨0, 2, 7, true, 2⟩], 5, [], 10⟩ ⟨[], 3, [], 0⟩
    (mkGenome [⟨0, 1, 0, true, 1⟩, ⟨0, 2, 7, true, 2⟩] [] 5) 0
    (by simp [SortedG]) (by simp [SortedG])
    (by simp [Genome.validConns]) (by simp [Genome.validConns])
    (by
      unfold Crossover CrossoverFull
      rw [if_pos (Or.inl (by norm_num)), if_neg (by norm_num),
        if_pos (by norm_num)]
      rfl)

/-- C6 counterexample: with parents of node counts 3 (fitness 10) and 5
(fitness 0), the fitter-base branch produces a child with node count 3, not
max(3, 5) = 5 — the claim that every branch yields the max of the parent
node counts is false. -/
theorem crossover_node_count_counterexample :
    Crossover ⟨1 / 2, false⟩ (fun _ => 0) 4 0 ⟨[], 3, [], 10⟩
        ⟨[], 5, [], 0⟩ = some (mkGenome [] [] 3, 0) ∧
    (mkGenome [] [] 3).nodeCount = 3 ∧
    max (⟨[], 3, [], 10⟩ : Genome).nodeCount
      (⟨[], 5, [], 0⟩ : Genome).nodeCount = 5 ∧ (3 : ℕ) ≠ 5 := by
  refine ⟨?_, rfl, rfl, by decide⟩
  unfold Crossover CrossoverFull
  rw [if_pos (Or.inl (by norm_num)), if_neg (by norm_num),
    if_pos (by norm_num)]
  rfl
